import Mathlib

/-!
Verification development for a Gaussian Belief Propagation (GBP) solver
(src/gbp/gbp.py). Each section shallowly embeds one part of the Python
source into Lean: pure numerics become functions over rationals or reals,
numpy arrays become functions out of Nat (zero outside their extent), and
the mutable object state of the Python classes becomes explicit record
passing. Definitions are translated from the source; definitions whose
name contains the word spec formalise the natural language specification
and are compared against the source translations.
-/

/-! ## Common canonical-form Gaussian values (information form) -/

/-- A canonical Gaussian over rationals: information vector eta and
precision matrix lam, stored as total functions (zero outside the
intended dimension), mirroring the NdimGaussian value type. -/
structure GaussQ where
  eta : ℕ → ℚ
  lam : ℕ → ℕ → ℚ

/-- Modelled from the spec: NdimGaussian(d) (from the utils.gaussian
module, which is not part of src/) constructs the identity canonical
Gaussian, identity(d) = (0, 0). -/
def NdimGaussianQ : GaussQ := ⟨fun _ => 0, fun _ _ => 0⟩

/-- The upper-left m-by-m corner of an untyped matrix as a Mathlib matrix. -/
def toMat {K : Type} (m : ℕ) (l : ℕ → ℕ → K) : Matrix (Fin m) (Fin m) K :=
  Matrix.of fun a b => l a.1 b.1

/-- Embedding of numpy matrix inversion np.linalg.inv on the m-by-m corner,
via the adjugate formula; entries outside the corner are zero. -/
def matInv {K : Type} [Field K] (m : ℕ) (l : ℕ → ℕ → K) : ℕ → ℕ → K :=
  fun i j =>
    if hi : i < m then
      if hj : j < m then
        (((toMat m l).det)⁻¹ • (toMat m l).adjugate) ⟨i, hi⟩ ⟨j, hj⟩
      else 0
    else 0

/-! ## C1: FactorGraph.remove_outlier (gbp.py lines 180-207)

Factors are represented by their unique factorID (a natural number), since
the Python code removes list elements by object identity and identifies
outliers by factorID. A variable node keeps the list of adjacent factor
ids, mirroring var_node.adj_factors. -/

/-- Embedding of the Python pattern of removing elements from a list while
iterating over it with a for loop. The interpreter keeps a position
counter i into the live list; list.remove deletes the first occurrence of
the yielded element, after which the counter still advances, skipping the
element that slid into the removed slot. -/
def pyForRemove (p : ℕ → Bool) (l : List ℕ) (i : ℕ) : List ℕ :=
  if h : i < l.length then
    let x := l.get ⟨i, h⟩
    if p x then pyForRemove p (l.erase x) (i + 1)
    else pyForRemove p l (i + 1)
  else l
termination_by l.length + 1 - i
decreasing_by
· have hx : l.get ⟨i, h⟩ ∈ l := List.get_mem l i h
  have := List.length_erase_of_mem hx
  simp only [this]
  omega
· omega

/-- A variable node as seen by remove_outlier: its adjacency list of
factor ids (var_node.adj_factors). -/
structure OVar where
  adj_factors : List ℕ

/-- The factor graph state touched by remove_outlier: the list of factor
ids (self.factors) and the variable nodes (self.var_nodes). -/
structure OGraph where
  factors : List ℕ
  var_nodes : List OVar

/-- Embedding of FactorGraph.remove_outlier: iterate over the loss list in
parallel with a copy tmp of self.factors, remove every factor whose loss
exceeds 300 from self.factors and record its id; then walk every
variable and delete outlier ids from its adj_factors while iterating
over that same list (the Python for/remove pattern). -/
def remove_outlier (g : OGraph) (factor_loss_list : List ℚ) : OGraph :=
  let tmp := g.factors
  let st := (factor_loss_list.zip tmp).foldl
    (fun (st : List ℕ × List ℕ) p =>
      if 300 < p.1 then (st.1.erase p.2, st.2 ++ [p.2]) else st)
    (g.factors, [])
  { factors := st.1,
    var_nodes := g.var_nodes.map fun v =>
      { adj_factors := pyForRemove (fun fid => fid ∈ st.2) v.adj_factors 0 } }

/-- Concrete graph for C1: two factors (ids 0 and 1), one variable adjacent
to both. -/
def c1Graph : OGraph := ⟨[0, 1], [⟨[0, 1]⟩]⟩

/-! ## C2: residual and energy (gbp.py lines 48-56, 362-376)

Scalar-measurement factors: adj_beliefs is a list of (dofs, belief)
pairs, meas_fn maps the concatenated belief means to a scalar. The
Python compute_residual returns the tuple (d, scale_factor), and both
Factor.energy and FactorGraph.energy pass that tuple through
np.linalg.norm, so the squared norm is d^2 + scale_factor^2. -/

/-- The concatenation of adjacent belief means, np.linalg.inv(lam) @ eta
for each belief in order, as in Factor.compute_residual. -/
def beliefMeansQ : List (ℕ × GaussQ) → (ℕ → ℚ) × ℕ → (ℕ → ℚ) × ℕ
  | [], st => st
  | (d, b) :: rest, (e, tot) =>
      beliefMeansQ rest
        (fun n =>
          if n < tot then e n
          else if n < tot + d then
            (Finset.range d).sum fun j => matInv d b.lam (n - tot) j * b.eta j
          else 0,
         tot + d)

/-- A factor as seen by compute_residual and energy. -/
structure EFactor where
  adj_beliefs : List (ℕ × GaussQ)
  meas_fn : (ℕ → ℚ) → ℚ
  measurement : ℚ
  scale_factor : ℚ
  adaptive_gauss_noise_var : ℚ

/-- Embedding of Factor.compute_residual: d = meas_fn(adj_belief_means) -
measurement, returned together with scale_factor as a pair. -/
def compute_residual (f : EFactor) : ℚ × ℚ :=
  (f.meas_fn (beliefMeansQ f.adj_beliefs (fun _ => 0, 0)).1 - f.measurement,
   f.scale_factor)

/-- Embedding of Factor.energy: 0.5 * np.linalg.norm(compute_residual())**2
/ adaptive_gauss_noise_var. The argument of the norm is the returned
2-tuple (d, scale_factor), so its squared norm is d^2 + scale_factor^2. -/
def Factor_energy (f : EFactor) : ℚ :=
  (1 / 2) * ((compute_residual f).1 ^ 2 + (compute_residual f).2 ^ 2) /
    f.adaptive_gauss_noise_var

/-- Embedding of FactorGraph.energy: accumulate the same per-factor
quantity over all factors. -/
def FactorGraph_energy (fs : List EFactor) : ℚ :=
  fs.foldl (fun acc f => acc + Factor_energy f) 0

/-- The energy the specification describes: one half of the squared norm
of the raw residual d alone, divided by the adaptive variance. -/
def spec_energy (f : EFactor) : ℚ :=
  (1 / 2) * (compute_residual f).1 ^ 2 / f.adaptive_gauss_noise_var

/-- Concrete factor for C2: predicted measurement 3 (constant meas_fn),
measurement 0, scale_factor 2, adaptive variance 1, one 1-dof belief. -/
def c2Factor : EFactor :=
  { adj_beliefs := [(1, ⟨fun _ => 3, fun _ _ => 1⟩)]
    meas_fn := fun _ => 3
    measurement := 0
    scale_factor := 2
    adaptive_gauss_noise_var := 1 }

/-! ## C3: FactorGraph.joint_distribution_inf (gbp.py lines 119-159)

Variables carry an id, a dof count and a prior; a factor carries the list
of (variableID, dofs) of its adjacent variables together with its stored
(eta, lam). Vectors and matrices are total functions that are zero
outside their extent, so numpy concatenation, block_diag and slice
increments become piecewise function builders. -/

/-- A variable node as seen by joint_distribution_inf. -/
structure PVar where
  variableID : ℕ
  dofs : ℕ
  prior : GaussQ

/-- A factor as seen by joint_distribution_inf: adjacent (variableID, dofs)
pairs in adjacency order, and the stored factor Gaussian. -/
structure JFac where
  adj : List (ℕ × ℕ)
  feta : ℕ → ℚ
  flam : ℕ → ℕ → ℚ

/-- The full graph state read by joint_distribution_inf. -/
structure JGraph where
  var_nodes : List PVar
  factors : List JFac

/-- Embedding of the var_ix table: walking the variable list in order,
var_ix[variableID] is set to the running offset (the numpy array is
zero-initialised, so ids never written map to 0). -/
def varIxAux : List PVar → (ℕ → ℕ) → ℕ → (ℕ → ℕ)
  | [], acc, _ => acc
  | v :: rest, acc, tot =>
      varIxAux rest (Function.update acc v.variableID tot) (tot + v.dofs)

/-- Embedding of the eta concatenation loop: np.concatenate((eta,
prior.eta)) for each variable in list order. -/
def etaConcat : List PVar → (ℕ → ℚ) → ℕ → (ℕ → ℚ) × ℕ
  | [], e, tot => (e, tot)
  | v :: rest, e, tot =>
      etaConcat rest
        (fun n =>
          if n < tot then e n
          else if n < tot + v.dofs then v.prior.eta (n - tot) else 0)
        (tot + v.dofs)

/-- scipy.linalg.block_diag of a sz-by-sz matrix with a d-by-d matrix. -/
def blockAppend (l : ℕ → ℕ → ℚ) (sz : ℕ) (p : ℕ → ℕ → ℚ) (d : ℕ) :
    ℕ → ℕ → ℚ :=
  fun i j =>
    if i < sz ∧ j < sz then l i j
    else if sz ≤ i ∧ i < sz + d ∧ sz ≤ j ∧ j < sz + d then
      p (i - sz) (j - sz)
    else 0

/-- Embedding of the lam accumulation loop of joint_distribution_inf: when
the variable with id 0 is met, lam is reset to that prior alone
(discarding anything accumulated so far); otherwise the prior is appended
with block_diag. -/
def lamConcat : List PVar → (ℕ → ℕ → ℚ) → ℕ → (ℕ → ℕ → ℚ) × ℕ
  | [], l, sz => (l, sz)
  | v :: rest, l, sz =>
      if v.variableID = 0 then
        lamConcat rest
          (fun i j => if i < v.dofs ∧ j < v.dofs then v.prior.lam i j else 0)
          v.dofs
      else
        lamConcat rest (blockAppend l sz v.prior.lam v.dofs) (sz + v.dofs)

/-- Plain block-diagonal concatenation of the priors, as the specification
describes the prior layout. -/
def blockDiagConcat : List PVar → (ℕ → ℕ → ℚ) → ℕ → (ℕ → ℕ → ℚ) × ℕ
  | [], l, sz => (l, sz)
  | v :: rest, l, sz =>
      blockDiagConcat rest (blockAppend l sz v.prior.lam v.dofs) (sz + v.dofs)

/-- In-place slice increment eta[off : off + d] += src[soff : soff + d]. -/
def addVec (e : ℕ → ℚ) (off d : ℕ) (src : ℕ → ℚ) (soff : ℕ) : ℕ → ℚ :=
  fun n => if off ≤ n ∧ n < off + d then e n + src (soff + (n - off)) else e n

/-- In-place block increment lam[r : r + dr, c : c + dc] +=
src[sr : sr + dr, sc : sc + dc]. -/
def addBlock (l : ℕ → ℕ → ℚ) (r c dr dc : ℕ) (src : ℕ → ℕ → ℚ)
    (sr sc : ℕ) : ℕ → ℕ → ℚ :=
  fun i j =>
    if r ≤ i ∧ i < r + dr ∧ c ≤ j ∧ j < c + dc then
      l i j + src (sr + (i - r)) (sc + (j - c))
    else l i j

/-- Embedding of the inner loop over other_adj_var_node: for every other
adjacent variable with strictly larger id, add the two off-diagonal
factor blocks (the [v, other] block and the [other, v] block). -/
def facLamInner (ix : ℕ → ℕ) (flam : ℕ → ℕ → ℚ) (vID d factor_ix : ℕ) :
    List (ℕ × ℕ) → ℕ → (ℕ → ℕ → ℚ) → (ℕ → ℕ → ℚ)
  | [], _, l => l
  | o :: rest, other_ix, l =>
      facLamInner ix flam vID d factor_ix rest (other_ix + o.2)
        (if vID < o.1 then
          addBlock
            (addBlock l (ix vID) (ix o.1) d o.2 flam factor_ix other_ix)
            (ix o.1) (ix vID) o.2 d flam other_ix factor_ix
        else l)

/-- Embedding of the outer loop over adj_var_node: add the diagonal eta and
lam contributions of the factor at the blocks given by var_ix, then run
the inner loop over all adjacent variables. -/
def facAddOuter (ix : ℕ → ℕ) (f : JFac) :
    List (ℕ × ℕ) → ℕ → (ℕ → ℚ) → (ℕ → ℕ → ℚ) →
    (ℕ → ℚ) × (ℕ → ℕ → ℚ)
  | [], _, e, l => (e, l)
  | v :: rest, factor_ix, e, l =>
      facAddOuter ix f rest (factor_ix + v.2)
        (addVec e (ix v.1) v.2 f.feta factor_ix)
        (facLamInner ix f.flam v.1 v.2 factor_ix f.adj 0
          (addBlock l (ix v.1) (ix v.1) v.2 v.2 f.flam factor_ix factor_ix))

/-- Embedding of FactorGraph.joint_distribution_inf: build var_ix and the
prior eta and lam over the variable list in its stored order, then fold
the factor contributions. -/
def joint_distribution_inf (g : JGraph) : (ℕ → ℚ) × (ℕ → ℕ → ℚ) :=
  let ix := varIxAux g.var_nodes (fun _ => 0) 0
  let e0 := (etaConcat g.var_nodes (fun _ => 0) 0).1
  let l0 := (lamConcat g.var_nodes (fun _ _ => 0) 0).1
  g.factors.foldl (fun st f => facAddOuter ix f f.adj 0 st.1 st.2) (e0, l0)

/-- The variable list in ascending id order (canonical order). -/
def sortedVars (g : JGraph) : List PVar :=
  g.var_nodes.insertionSort (fun a b => a.variableID ≤ b.variableID)

/-- The joint distribution the specification describes: priors concatenated
over all variables in canonical id order (eta blocks concatenated, lam
block-diagonal), and each factor added into its adjacent blocks (diagonal
plus both off-diagonal copies). -/
def joint_distribution_spec (g : JGraph) : (ℕ → ℚ) × (ℕ → ℕ → ℚ) :=
  let sv := sortedVars g
  let ix := varIxAux sv (fun _ => 0) 0
  let e0 := (etaConcat sv (fun _ => 0) 0).1
  let l0 := (blockDiagConcat sv (fun _ _ => 0) 0).1
  g.factors.foldl (fun st f => facAddOuter ix f f.adj 0 st.1 st.2) (e0, l0)

/-- Concrete graph for C3, with the variable list NOT in id order: the
variable with id 1 (prior eta 5) is listed before the variable with id 0
(prior eta 7). -/
def c3Graph : JGraph :=
  { var_nodes :=
      [⟨1, 1, ⟨fun _ => 5, fun _ _ => 1⟩⟩, ⟨0, 1, ⟨fun _ => 7, fun _ _ => 1⟩⟩]
    factors := [] }

/-- Concrete graph for C3 with the variable list in ascending id order and
one binary factor. -/
def c3SortedGraph : JGraph :=
  { var_nodes :=
      [⟨0, 1, ⟨fun _ => 7, fun _ _ => 1⟩⟩, ⟨1, 1, ⟨fun _ => 5, fun _ _ => 1⟩⟩]
    factors := [⟨[(0, 1), (1, 1)], fun _ => 1, fun _ _ => 1⟩] }

/-! ## C7, C8, C10: VariableNode.update_belief (gbp.py lines 279-305) and
the message initialisation of Factor.__init__ (lines 326-341)

Beliefs, priors and messages are canonical Gaussians over rationals. A
FactorView is the slice of a Factor object that update_belief touches:
adj_vIDs, messages and adj_beliefs, indexed in the same adjacency order.
All blocks read or written for one variable have that variable's dofs. -/

/-- The view a variable has of an adjacent factor. -/
structure FactorView where
  adj_vIDs : List ℕ
  messages : List GaussQ
  adj_beliefs : List GaussQ

/-- A variable node with the state update_belief reads and writes. -/
structure VarNode where
  variableID : ℕ
  dofs : ℕ
  prior : GaussQ
  belief : GaussQ
  Sigma : ℕ → ℕ → ℚ
  mu : ℕ → ℚ

/-- adj_vIDs.index(variableID): the slot of this variable inside the
factor (Python raises if absent; theorems assume membership). -/
def msgIx (f : FactorView) (vid : ℕ) : ℕ := f.adj_vIDs.indexOf vid

/-- One step of the message-product loop of update_belief: add the
incoming message of one adjacent factor componentwise. -/
def beliefStep (vid : ℕ) (g : GaussQ) (f : FactorView) : GaussQ :=
  let m := f.messages.getD (msgIx f vid) NdimGaussianQ
  ⟨fun n => g.eta n + m.eta n, fun i j => g.lam i j + m.lam i j⟩

/-- The message-product loop of update_belief: starting from a copy of the
prior, add the message of every adjacent factor. -/
def sumPriorMessages (v : VarNode) (fs : List FactorView) : GaussQ :=
  fs.foldl (beliefStep v.variableID) v.prior

/-- Embedding of VariableNode.update_belief. The belief is assigned before
np.linalg.inv(self.belief.lam) runs, so when the summed precision is
singular (LinAlgError) the function returns with the belief already
overwritten while Sigma, mu and the adjacent factors keep their old
values; the Bool is the success flag. On success Sigma and mu are
recomputed and the new belief is written into this variable's
adj_beliefs slot of every adjacent factor. -/
def update_belief (v : VarNode) (fs : List FactorView) :
    VarNode × List FactorView × Bool :=
  let b := sumPriorMessages v fs
  if (toMat v.dofs b.lam).det = 0 then
    ({ v with belief := b }, fs, false)
  else
    let S := matInv v.dofs b.lam
    ({ v with
        belief := b
        Sigma := S
        mu := fun i => (Finset.range v.dofs).sum fun j => S i j * b.eta j },
     fs.map fun f =>
       { f with adj_beliefs := f.adj_beliefs.set (msgIx f v.variableID) b },
     true)

/-- Embedding of the outgoing-message initialisation in Factor.__init__:
self.messages gets one NdimGaussian(adj_var_node.dofs) per adjacent
variable. -/
def factorInitMessages (adj_dofs : List ℕ) : List GaussQ :=
  adj_dofs.map fun _ => NdimGaussianQ

/-- Concrete variable for the C7 witness: id 7, one dof, prior (1, 2). -/
def c7Var : VarNode :=
  { variableID := 7, dofs := 1
    prior := ⟨fun _ => 1, fun _ _ => 2⟩
    belief := NdimGaussianQ
    Sigma := fun _ _ => 0
    mu := fun _ => 0 }

/-- Concrete adjacent factor for the C7 witness: message (3, 4) for
variable 7. -/
def c7Factor : FactorView :=
  { adj_vIDs := [7]
    messages := [⟨fun _ => 3, fun _ _ => 4⟩]
    adj_beliefs := [NdimGaussianQ] }

/-- Concrete variable for the C8 witness: singular (zero) prior precision. -/
def c8Var : VarNode :=
  { variableID := 0, dofs := 1
    prior := ⟨fun _ => 4, fun _ _ => 0⟩
    belief := NdimGaussianQ
    Sigma := fun _ _ => 9
    mu := fun _ => 9 }

/-- Concrete adjacent factor for the C10 witness: freshly constructed, its
message list comes from the Factor.__init__ initialisation. -/
def c10Factor : FactorView :=
  { adj_vIDs := [0]
    messages := factorInitMessages [1]
    adj_beliefs := [NdimGaussianQ] }

/-- Concrete variable for the C10 witness: prior (4, 0), whose precision is
singular. -/
def c10Var : VarNode :=
  { variableID := 0, dofs := 1
    prior := ⟨fun _ => 4, fun _ _ => 0⟩
    belief := NdimGaussianQ
    Sigma := fun _ _ => 0
    mu := fun _ => 0 }

/-! ## C9: Factor.compute_messages (gbp.py lines 457-511)

The factor state that compute_messages touches: the per-neighbour dof
list (defining the block layout), the stored factor Gaussian, the cached
adjacent beliefs and the previously sent messages. The writes to the
message.txt side file and to the heatmap sink are I/O side effects with
no influence on the computed messages and are not modelled. -/

/-- A factor as seen by compute_messages. -/
structure MFactor where
  adj_dofs : List ℕ
  factor : GaussQ
  adj_beliefs : List GaussQ
  messages : List GaussQ

/-- The cavity-augmented distribution for outgoing slot v (gbp.py lines
464-473): a copy of the stored factor plus, on the diagonal block of
every other neighbour u, the difference between the cached belief of u
and the message previously sent to u. The running mess_start_dim offset
equals the sum of the dofs of the neighbours before u. -/
def cavity (f : MFactor) (v : ℕ) : (ℕ → ℚ) × (ℕ → ℕ → ℚ) :=
  (List.range f.adj_dofs.length).foldl
    (fun st u =>
      if u ≠ v then
        let du := f.adj_dofs.getD u 0
        let ou := (f.adj_dofs.take u).sum
        let bu := f.adj_beliefs.getD u NdimGaussianQ
        let msgu := f.messages.getD u NdimGaussianQ
        (fun n =>
          if ou ≤ n ∧ n < ou + du then
            st.1 n + (bu.eta (n - ou) - msgu.eta (n - ou))
          else st.1 n,
         fun i j =>
          if ou ≤ i ∧ i < ou + du ∧ ou ≤ j ∧ j < ou + du then
            st.2 i j + (bu.lam (i - ou) (j - ou) - msgu.lam (i - ou) (j - ou))
          else st.2 i j)
      else st)
    (f.factor.eta, f.factor.lam)

/-- The outgoing message for slot v computed from the entry state of the
factor (gbp.py lines 463-492): partition the cavity-augmented (eta, lam)
at the slot offset into the v block (o) and the remaining block (no),
marginalise by Schur complement
(lam_oo - lam_ono lam_nono^-1 lam_noo, eta_o - lam_ono lam_nono^-1 eta_no),
and damp eta against the previously sent message. -/
def messageAt (f : MFactor) (eta_damping : ℚ) (v : ℕ) : GaussQ :=
  let st := cavity f v
  let start := (f.adj_dofs.take v).sum
  let dv := f.adj_dofs.getD v 0
  let m := f.adj_dofs.sum - dv
  let oi := fun p => if p < start then p else p + dv
  let eo := fun i => st.1 (start + i)
  let eno := fun p => st.1 (oi p)
  let loo := fun i j => st.2 (start + i) (start + j)
  let lono := fun i p => st.2 (start + i) (oi p)
  let lnoo := fun p j => st.2 (oi p) (start + j)
  let lnono := fun p q => st.2 (oi p) (oi q)
  let inv := matInv m lnono
  ⟨fun i =>
      (1 - eta_damping) *
          (eo i - (Finset.range m).sum fun p =>
            lono i p * ((Finset.range m).sum fun q => inv p q * eno q))
        + eta_damping * (f.messages.getD v NdimGaussianQ).eta i,
   fun i j =>
      loo i j - (Finset.range m).sum fun p =>
        lono i p * ((Finset.range m).sum fun q => inv p q * lnoo q j)⟩

/-- The commit loop of compute_messages (gbp.py lines 505-507): write the
precomputed messages into self.messages, one slot per step, in the
given order. -/
def commitAll (order : List ℕ) (msgs news : List GaussQ) : List GaussQ :=
  order.foldl (fun acc u => acc.set u (news.getD u NdimGaussianQ)) msgs

/-- Embedding of Factor.compute_messages: first compute every outgoing
message from the entry state, then overwrite the messages array slot by
slot in index order. -/
def compute_messages (f : MFactor) (eta_damping : ℚ) : MFactor :=
  let news := (List.range f.adj_dofs.length).map (messageAt f eta_damping)
  { f with messages := commitAll (List.range f.adj_dofs.length) f.messages news }

/-- Concrete unary factor for the C9 witness. -/
def c9Factor : MFactor :=
  { adj_dofs := [1]
    factor := ⟨fun _ => 5, fun _ _ => 2⟩
    adj_beliefs := [NdimGaussianQ]
    messages := [NdimGaussianQ] }

/-! ## C4, C5, C6: Factor.robustify_loss (gbp.py lines 418-455),
Factor.compute_factor (lines 378-406) and the per-factor body of
FactorGraph.relinearise_factors (lines 91-103)

These routines compare a Euclidean norm (a square root) against a
threshold, so they are embedded over the real numbers. -/

/-- A canonical Gaussian over the reals. -/
structure GaussR where
  eta : ℕ → ℝ
  lam : ℕ → ℕ → ℝ

/-- The robust loss tags the source recognises besides None. -/
inductive LossKind
  | huber
  | constant

/-- The factor state read and written by robustify_loss, compute_factor
and relinearise_factors: measurement model, linearisation point, noise
variances, robust-loss configuration, damping and relinearisation
counter, and the stored factor Gaussian. adj_beliefs pairs each
adjacent belief with its dof count. -/
structure RFactor where
  meas_dim : ℕ
  measurement : ℕ → ℝ
  meas_fn : (ℕ → ℝ) → ℕ → ℝ
  jac_fn : (ℕ → ℝ) → ℕ → ℕ → ℝ
  dofs_conditional_vars : ℕ
  adj_beliefs : List (ℕ × GaussR)
  linpoint : ℕ → ℝ
  gauss_noise_var : ℝ
  adaptive_gauss_noise_var : ℝ
  loss : Option LossKind
  mahalanobis_threshold : ℝ
  robust_flag : Bool
  eta_damping : ℝ
  iters_since_relin : ℕ
  factor : GaussR

/-- Squared Euclidean norm of the first n entries. -/
noncomputable def normSqR (n : ℕ) (v : ℕ → ℝ) : ℝ :=
  (Finset.range n).sum fun i => v i ^ 2

/-- np.linalg.norm(measurement - meas_fn(linpoint)) /
np.sqrt(gauss_noise_var): the Mahalanobis distance at the current
linearisation point (gbp.py lines 434, 445). -/
noncomputable def mahalanobis_dist (f : RFactor) : ℝ :=
  Real.sqrt (normSqR f.meas_dim fun i =>
    f.measurement i - f.meas_fn f.linpoint i) / Real.sqrt f.gauss_noise_var

open Classical in
/-- Embedding of Factor.robustify_loss: pick the new adaptive variance
according to the loss tag (None: the nominal variance; huber: the
Huber rescaling when the Mahalanobis distance exceeds the threshold;
constant: the squared distance when it exceeds the threshold), then
rescale the stored factor in place by old/new. The local
adj_belief_means computed by the source in the robust branch is unused
there (dead code) and is not modelled. -/
noncomputable def robustify_loss (f : RFactor) : RFactor :=
  let old := f.adaptive_gauss_noise_var
  let g :=
    match f.loss with
    | none => { f with adaptive_gauss_noise_var := f.gauss_noise_var }
    | some LossKind.huber =>
        if mahalanobis_dist f > f.mahalanobis_threshold then
          { f with
              adaptive_gauss_noise_var :=
                f.gauss_noise_var * mahalanobis_dist f ^ 2 /
                  (2 * (f.mahalanobis_threshold * mahalanobis_dist f
                    - 1 / 2 * f.mahalanobis_threshold ^ 2))
              robust_flag := true }
        else
          { f with
              robust_flag := false
              adaptive_gauss_noise_var := f.gauss_noise_var }
    | some LossKind.constant =>
        if mahalanobis_dist f > f.mahalanobis_threshold then
          { f with
              adaptive_gauss_noise_var := mahalanobis_dist f ^ 2
              robust_flag := true }
        else
          { f with
              robust_flag := false
              adaptive_gauss_noise_var := f.gauss_noise_var }
  { g with
      factor :=
        ⟨fun n => g.factor.eta n * (old / g.adaptive_gauss_noise_var),
         fun i j => g.factor.lam i j * (old / g.adaptive_gauss_noise_var)⟩ }

/-- The rescale that the next robustify_loss call performs when the loss
does not fire: multiply the stored factor by the inverse ratio
(current adaptive variance over the nominal variance) and restore the
adaptive variance to the nominal one. -/
noncomputable def revert_adaptive (f : RFactor) : RFactor :=
  { f with
      adaptive_gauss_noise_var := f.gauss_noise_var
      factor :=
        ⟨fun n => f.factor.eta n *
            (f.adaptive_gauss_noise_var / f.gauss_noise_var),
         fun i j => f.factor.lam i j *
            (f.adaptive_gauss_noise_var / f.gauss_noise_var)⟩ }

/-- Embedding of the vector-measurement branch of Factor.compute_factor at
a given linearisation point lp: J = jac_fn(lp), W = I/adaptive variance,
lam_F = J^T W J and eta_F = (J^T W)(J lp + z - meas_fn(lp)). The scalar
branch of the source is this formula with meas_dim = 1. -/
noncomputable def compute_factor (f : RFactor) (lp : ℕ → ℝ) : GaussR :=
  let J := f.jac_fn lp
  let predm := f.meas_fn lp
  ⟨fun a => (Finset.range f.meas_dim).sum fun i =>
      J i a * ((1 / f.adaptive_gauss_noise_var) *
        (((Finset.range f.dofs_conditional_vars).sum fun j => J i j * lp j)
          + f.measurement i - predm i)),
   fun a b => (Finset.range f.meas_dim).sum fun i =>
      J i a * (1 / f.adaptive_gauss_noise_var) * J i b⟩

/-- The concatenation of adjacent belief means over the reals
(np.linalg.inv(belief.lam) @ belief.eta for each belief in order), as
built at the top of the relinearise_factors loop body. -/
noncomputable def concatMeansR : List (ℕ × GaussR) → (ℕ → ℝ) → ℕ → (ℕ → ℝ) × ℕ
  | [], e, tot => (e, tot)
  | (d, b) :: rest, e, tot =>
      concatMeansR rest
        (fun n =>
          if n < tot then e n
          else if n < tot + d then
            (Finset.range d).sum fun j => matInv d b.lam (n - tot) j * b.eta j
          else 0)
        (tot + d)

/-- The relinearisation gate of relinearise_factors: the belief means have
drifted from the linearisation point by more than beta, and at least
min_linear_iters iterations have passed since the last relinearisation. -/
noncomputable def relinCond (beta : ℝ) (min_linear_iters : ℕ)
    (f : RFactor) : Prop :=
  Real.sqrt (normSqR f.dofs_conditional_vars fun n =>
      f.linpoint n - (concatMeansR f.adj_beliefs (fun _ => 0) 0).1 n) > beta
  ∧ min_linear_iters ≤ f.iters_since_relin

open Classical in
/-- Embedding of the per-factor body of FactorGraph.relinearise_factors:
when the gate fires, compute_factor is run at the current belief means
(which also stores them as the new linpoint), the counter is reset and
the damping cleared; otherwise the counter is incremented. -/
noncomputable def relinearise_step (beta : ℝ) (min_linear_iters : ℕ)
    (f : RFactor) : RFactor :=
  let x := (concatMeansR f.adj_beliefs (fun _ => 0) 0).1
  if relinCond beta min_linear_iters f then
    { f with
        factor := compute_factor f x
        linpoint := x
        iters_since_relin := 0
        eta_damping := 0 }
  else { f with iters_since_relin := f.iters_since_relin + 1 }

open Classical in
/-- Iterate relinearise_step over a sequence of belief snapshots (one per
synchronous iteration), counting how many times the gate fires. -/
noncomputable def relinRun (beta : ℝ) (min_linear_iters : ℕ) :
    RFactor → List (List (ℕ × GaussR)) → RFactor × ℕ
  | f, [] => (f, 0)
  | f, bs :: rest =>
      let f1 := { f with adj_beliefs := bs }
      let r := relinRun beta min_linear_iters
        (relinearise_step beta min_linear_iters f1) rest
      (r.1, r.2 + if relinCond beta min_linear_iters f1 then 1 else 0)

/-- Concrete factor for the C4 witness: zero residual at the linpoint,
huber loss, threshold 2, nominal and adaptive variance 1. -/
noncomputable def c4Factor : RFactor :=
  { meas_dim := 1
    measurement := fun _ => 0
    meas_fn := fun _ _ => 0
    jac_fn := fun _ _ _ => 0
    dofs_conditional_vars := 1
    adj_beliefs := []
    linpoint := fun _ => 0
    gauss_noise_var := 1
    adaptive_gauss_noise_var := 1
    loss := some LossKind.huber
    mahalanobis_threshold := 2
    robust_flag := false
    eta_damping := 0
    iters_since_relin := 1
    factor := ⟨fun _ => 6, fun _ _ => 6⟩ }

/-- Concrete factor for the C5 witness: no robust loss, variances equal,
stored factor (2, 3). -/
noncomputable def c5Factor : RFactor :=
  { meas_dim := 1
    measurement := fun _ => 0
    meas_fn := fun _ _ => 0
    jac_fn := fun _ _ _ => 0
    dofs_conditional_vars := 1
    adj_beliefs := []
    linpoint := fun _ => 0
    gauss_noise_var := 1
    adaptive_gauss_noise_var := 1
    loss := none
    mahalanobis_threshold := 2
    robust_flag := false
    eta_damping := 0
    iters_since_relin := 1
    factor := ⟨fun _ => 2, fun _ _ => 3⟩ }

/-- Concrete factor for the C6 witness: freshly relinearised
(iters_since_relin = 0). -/
noncomputable def c6Factor : RFactor :=
  { meas_dim := 0
    measurement := fun _ => 0
    meas_fn := fun _ _ => 0
    jac_fn := fun _ _ _ => 0
    dofs_conditional_vars := 0
    adj_beliefs := []
    linpoint := fun _ => 0
    gauss_noise_var := 1
    adaptive_gauss_noise_var := 1
    loss := none
    mahalanobis_threshold := 2
    robust_flag := false
    eta_damping := 0
    iters_since_relin := 0
    factor := ⟨fun _ => 0, fun _ _ => 0⟩ }

/-! # Theorems -/

/-- Helper: on a list of variables none of which has id 0, the lam loop of
joint_distribution_inf is plain block-diagonal concatenation. -/
theorem lamConcat_eq_blockDiagConcat :
    ∀ (l : List PVar), (∀ u ∈ l, u.variableID ≠ 0) →
    ∀ m sz, lamConcat l m sz = blockDiagConcat l m sz := by
  intro l
  induction l with
  | nil => intro _ m sz; rfl
  | cons v rest ih =>
      intro h m sz
      rw [lamConcat, blockDiagConcat, if_neg (h v (List.mem_cons_self v rest))]
      exact ih (fun u hu => h u (List.mem_cons_of_mem v hu)) _ _

/-- Claim C1 (code bug witness): on a graph with two factors both of whose
losses exceed the threshold and a variable adjacent to both, the code
prunes both factors from the factor list, yet the variable still holds
factor id 1 in adj_factors afterwards, because the adjacency cleanup
removes from the list it is iterating over and skips the next element.
This contradicts the claim that no pruned factor is referenced by any
variable. -/
theorem remove_outlier_leaves_stale_adjacency :
    (remove_outlier c1Graph [400, 400]).factors = [] ∧
    ((remove_outlier c1Graph [400, 400]).var_nodes.getD 0 ⟨[]⟩).adj_factors
      = [1] := by
  refine ⟨rfl, ?_⟩
  norm_num [remove_outlier, c1Graph]
  rw [pyForRemove.eq_def]
  norm_num [List.erase]
  rw [pyForRemove.eq_def]
  norm_num

/-- Claim C2 (code bug witness): for the concrete factor with raw residual
d = 3, scale_factor = 2 and adaptive variance 1, Factor.energy and
FactorGraph.energy both evaluate to (1/2)*(3^2+2^2) = 13/2, whereas the
claimed formula, one half of the squared norm of the raw residual only,
gives 9/2. The scale_factor component of the residual tuple enters the
norm. -/
theorem energy_includes_scale_factor :
    Factor_energy c2Factor = 13 / 2 ∧
    FactorGraph_energy [c2Factor] = 13 / 2 ∧
    spec_energy c2Factor = 9 / 2 := by
  refine ⟨?_, ?_, ?_⟩ <;>
    norm_num [Factor_energy, FactorGraph_energy, spec_energy, compute_residual,
      c2Factor]

/-- Claim C3 (counterexample): on the graph whose variable list holds the
variable with id 1 (prior eta 5) before the variable with id 0 (prior
eta 7), the code lays eta out in list order, so position 0 of the result
carries 5, while the canonical id-order layout the claim asserts would
carry 7 there. -/
theorem joint_distribution_inf_order_dependent :
    (joint_distribution_inf c3Graph).1 0 = 5 ∧
    (joint_distribution_spec c3Graph).1 0 = 7 := by
  constructor <;> rfl

/-- Helper: on a variable list in ascending dense id order, the lam loop of
joint_distribution_inf (whose id-0 branch resets the accumulator) agrees
with plain block-diagonal concatenation, because the id-0 variable comes
first and resets an empty accumulator. -/
theorem lamConcat_sorted (l : List PVar)
    (hs : ∀ i (h : i < l.length), (l.get ⟨i, h⟩).variableID = i) :
    lamConcat l (fun _ _ => 0) 0 = blockDiagConcat l (fun _ _ => 0) 0 := by
  cases l with
  | nil => rfl
  | cons v rest =>
      have hv0 : v.variableID = 0 := hs 0 (Nat.succ_pos _)
      have hrest : ∀ u ∈ rest, u.variableID ≠ 0 := by
        intro u hu
        obtain ⟨j, hj⟩ := List.mem_iff_get.mp hu
        have h3 : (rest.get j).variableID = j.1 + 1 :=
          hs (j.1 + 1) (Nat.succ_lt_succ j.isLt)
        rw [hj] at h3
        omega
      rw [lamConcat, blockDiagConcat, if_pos hv0,
        lamConcat_eq_blockDiagConcat rest hrest]
      have hm : (fun i j =>
          if i < v.dofs ∧ j < v.dofs then v.prior.lam i j else (0 : ℚ))
          = blockAppend (fun _ _ => 0) 0 v.prior.lam v.dofs := by
        funext i j
        simp [blockAppend]
      rw [hm, Nat.zero_add]

/-- Claim C3 (amended): when the variable list is stored in ascending id
order (the variable at position i has id i), joint_distribution_inf
returns exactly the joint distribution described by the specification:
prior eta blocks concatenated by ascending id, prior lam blocks
block-diagonal, and every factor added into its adjacent variable
blocks, diagonal and both off-diagonal copies. -/
theorem joint_distribution_inf_sorted (g : JGraph)
    (hs : ∀ i (h : i < g.var_nodes.length),
      (g.var_nodes.get ⟨i, h⟩).variableID = i) :
    joint_distribution_inf g = joint_distribution_spec g := by
  have hsorted : sortedVars g = g.var_nodes := by
    apply List.Sorted.insertionSort_eq
    show List.Pairwise _ _
    rw [List.pairwise_iff_get]
    intro i j hij
    have h1 : (g.var_nodes.get i).variableID = i.1 := hs i.1 i.isLt
    have h2 : (g.var_nodes.get j).variableID = j.1 := hs j.1 j.isLt
    rw [h1, h2]
    exact Nat.le_of_lt hij
  have hlam := lamConcat_sorted g.var_nodes hs
  simp only [joint_distribution_inf, joint_distribution_spec, hsorted, hlam]

/-- Claim C3 (witness for the amended theorem): a concrete two-variable
one-factor graph stored in ascending id order satisfies the hypothesis,
and there the code result coincides with the specified id-order joint. -/
theorem joint_distribution_inf_sorted_witness :
    joint_distribution_inf c3SortedGraph = joint_distribution_spec c3SortedGraph :=
  joint_distribution_inf_sorted c3SortedGraph (by decide)

/-- Helper: closed form of the eta component of the message-product fold. -/
theorem beliefFold_eta (vid n : ℕ) :
    ∀ (fs : List FactorView) (g : GaussQ),
    (fs.foldl (beliefStep vid) g).eta n =
      g.eta n + (fs.map fun f =>
        (f.messages.getD (msgIx f vid) NdimGaussianQ).eta n).sum := by
  intro fs
  induction fs with
  | nil => intro g; simp
  | cons f rest ih =>
      intro g
      rw [List.foldl_cons, ih, List.map_cons, List.sum_cons]
      simp only [beliefStep]
      ring

/-- Helper: closed form of the lam component of the message-product fold. -/
theorem beliefFold_lam (vid i j : ℕ) :
    ∀ (fs : List FactorView) (g : GaussQ),
    (fs.foldl (beliefStep vid) g).lam i j =
      g.lam i j + (fs.map fun f =>
        (f.messages.getD (msgIx f vid) NdimGaussianQ).lam i j).sum := by
  intro fs
  induction fs with
  | nil => intro g; simp
  | cons f rest ih =>
      intro g
      rw [List.foldl_cons, ih, List.map_cons, List.sum_cons]
      simp only [beliefStep]
      ring

/-- Helper: the adjugate-formula inverse embedded for untyped matrices
agrees with the Mathlib matrix inverse on the m-by-m corner. -/
theorem toMat_matInv {K : Type} [Field K] (m : ℕ) (l : ℕ → ℕ → K) :
    toMat m (matInv m l) = (toMat m l)⁻¹ := by
  funext i j
  show matInv m l i.1 j.1 = _
  rw [matInv]
  rw [dif_pos i.isLt, dif_pos j.isLt, Matrix.inv_def, Ring.inverse_eq_inv]

/-- Helper: reading back the slot just written by List.set. -/
theorem setGetD (l : List GaussQ) (m : ℕ) (x : GaussQ)
    (h : m < l.length) :
    (l.set m x).getD m NdimGaussianQ = x := by
  rw [List.getD_eq_getElem _ _ (by simpa using h)]
  simp [List.getElem_set]

/-- Helper: the success/failure flag of update_belief is false exactly when
the summed belief precision is singular. -/
theorem update_belief_flag_iff (v : VarNode) (fs : List FactorView) :
    (update_belief v fs).2.2 = false
      ↔ (toMat v.dofs (sumPriorMessages v fs).lam).det = 0 := by
  by_cases h : (toMat v.dofs (sumPriorMessages v fs).lam).det = 0 <;>
    simp [update_belief, h]

/-- Helper: both branches of update_belief assign the summed Gaussian to
the belief before the inversion can fail. -/
theorem update_belief_belief (v : VarNode) (fs : List FactorView) :
    (update_belief v fs).1.belief = sumPriorMessages v fs := by
  by_cases h : (toMat v.dofs (sumPriorMessages v fs).lam).det = 0 <;>
    simp [update_belief, h]

/-- Claim C7: on a nonsingular summed precision, update_belief sets the
belief to the componentwise sum of the prior and, for each adjacent
factor, the message at slot adj_vIDs.index(variableID); recomputes Sigma
as the inverse of the belief precision and mu as Sigma times the belief
eta; overwrites each adjacent factor's adj_beliefs slot for this
variable with the new belief, re-establishing Invariant 1; and does not
mutate the prior. -/
theorem update_belief_spec (v : VarNode) (fs : List FactorView)
    (hdet : (toMat v.dofs (sumPriorMessages v fs).lam).det ≠ 0)
    (hix : ∀ f ∈ fs, msgIx f v.variableID < f.adj_beliefs.length) :
    (update_belief v fs).2.2 = true
    ∧ (∀ n, (update_belief v fs).1.belief.eta n =
        v.prior.eta n + (fs.map fun f =>
          (f.messages.getD (msgIx f v.variableID) NdimGaussianQ).eta n).sum)
    ∧ (∀ i j, (update_belief v fs).1.belief.lam i j =
        v.prior.lam i j + (fs.map fun f =>
          (f.messages.getD (msgIx f v.variableID) NdimGaussianQ).lam i j).sum)
    ∧ toMat v.dofs (update_belief v fs).1.Sigma
        = (toMat v.dofs (sumPriorMessages v fs).lam)⁻¹
    ∧ (∀ i, (update_belief v fs).1.mu i = (Finset.range v.dofs).sum fun j =>
        (update_belief v fs).1.Sigma i j * (update_belief v fs).1.belief.eta j)
    ∧ (update_belief v fs).1.prior = v.prior
    ∧ (update_belief v fs).2.1 = (fs.map fun f =>
        { f with adj_beliefs :=
            f.adj_beliefs.set (msgIx f v.variableID) (sumPriorMessages v fs) })
    ∧ (∀ f ∈ fs,
        (f.adj_beliefs.set (msgIx f v.variableID)
            (sumPriorMessages v fs)).getD (msgIx f v.variableID) NdimGaussianQ
          = sumPriorMessages v fs) := by
  have hb : update_belief v fs =
      ({ v with
          belief := sumPriorMessages v fs
          Sigma := matInv v.dofs (sumPriorMessages v fs).lam
          mu := fun i => (Finset.range v.dofs).sum fun j =>
            matInv v.dofs (sumPriorMessages v fs).lam i j *
              (sumPriorMessages v fs).eta j },
       fs.map fun f =>
         { f with adj_beliefs :=
             f.adj_beliefs.set (msgIx f v.variableID) (sumPriorMessages v fs) },
       true) := by
    simp [update_belief, hdet]
  refine ⟨by rw [hb], ?_, ?_, ?_, ?_, by rw [hb], by rw [hb], ?_⟩
  · intro n
    rw [hb]
    exact beliefFold_eta v.variableID n fs v.prior
  · intro i j
    rw [hb]
    exact beliefFold_lam v.variableID i j fs v.prior
  · rw [hb]
    exact toMat_matInv v.dofs (sumPriorMessages v fs).lam
  · intro i
    rw [hb]
  · intro f hf
    exact setGetD _ _ _ (hix f hf)

/-- Claim C7 witness: for the concrete variable with prior (1, 2) and one
adjacent factor carrying message (3, 4), update_belief succeeds, the new
belief eta at 0 is 1 + 3 = 4, and the prior is untouched. -/
theorem update_belief_spec_witness :
    (update_belief c7Var [c7Factor]).2.2 = true
    ∧ (update_belief c7Var [c7Factor]).1.belief.eta 0 = 4
    ∧ (update_belief c7Var [c7Factor]).1.prior = c7Var.prior := by
  have hdet : (toMat c7Var.dofs (sumPriorMessages c7Var [c7Factor]).lam).det ≠ 0 := by
    have : (toMat c7Var.dofs (sumPriorMessages c7Var [c7Factor]).lam).det = 6 := by
      show (toMat 1 (sumPriorMessages c7Var [c7Factor]).lam).det = 6
      rw [Matrix.det_fin_one]
      norm_num [toMat, sumPriorMessages, beliefStep, c7Var, c7Factor, msgIx]
    rw [this]
    norm_num
  have hix : ∀ f ∈ [c7Factor], msgIx f c7Var.variableID < f.adj_beliefs.length := by
    intro f hf
    rw [List.mem_singleton] at hf
    subst hf
    decide
  obtain ⟨h1, h2, _, _, _, h6, _, _⟩ := update_belief_spec c7Var [c7Factor] hdet hix
  refine ⟨h1, ?_, h6⟩
  rw [h2 0]
  norm_num [c7Var, c7Factor, msgIx]

/-- Claim C8: update_belief fails (flag false, the LinAlgError surfaced by
np.linalg.inv) exactly when the summed belief precision, prior plus
messages, is singular; and at the point of failure the belief has
already been overwritten with the summed Gaussian while Sigma, mu, the
prior and the adjacent factors (in particular their adj_beliefs slots)
keep their old values: no rollback. -/
theorem update_belief_noninvertible (v : VarNode) (fs : List FactorView) :
    ((update_belief v fs).2.2 = false
      ↔ (toMat v.dofs (sumPriorMessages v fs).lam).det = 0)
    ∧ ((toMat v.dofs (sumPriorMessages v fs).lam).det = 0 →
        (update_belief v fs).1.belief = sumPriorMessages v fs
        ∧ (update_belief v fs).1.Sigma = v.Sigma
        ∧ (update_belief v fs).1.mu = v.mu
        ∧ (update_belief v fs).1.prior = v.prior
        ∧ (update_belief v fs).2.1 = fs) := by
  refine ⟨update_belief_flag_iff v fs, fun h => ?_⟩
  refine ⟨update_belief_belief v fs, ?_, ?_, ?_, ?_⟩ <;>
    simp [update_belief, h]

/-- Claim C8 witness: with a singular (zero) prior precision and no
adjacent factors, update_belief fails, keeps the old Sigma, and has
already assigned the summed belief. -/
theorem update_belief_noninvertible_witness :
    (update_belief c8Var []).2.2 = false
    ∧ (update_belief c8Var []).1.Sigma = c8Var.Sigma
    ∧ (update_belief c8Var []).1.belief = sumPriorMessages c8Var [] := by
  have hdet : (toMat c8Var.dofs (sumPriorMessages c8Var []).lam).det = 0 := by
    simp [Matrix.det_fin_one, toMat, sumPriorMessages, c8Var]
  obtain ⟨h1, h2⟩ := update_belief_noninvertible c8Var []
  exact ⟨h1.mpr hdet, (h2 hdet).2.1, (h2 hdet).1⟩

/-- Claim C10: every outgoing message created by the Factor constructor is
the zero Gaussian (0, 0), the identity of the information-form product;
hence update_belief on a variable all of whose adjacent factors still
hold their initial messages reproduces the prior as the belief, and
fails with NonInvertible exactly when the prior precision is singular. -/
theorem factor_init_zero_messages (ds : List ℕ) (v : VarNode)
    (fs : List FactorView)
    (hz : ∀ f ∈ fs, ∀ g ∈ f.messages, g = NdimGaussianQ) :
    (∀ g ∈ factorInitMessages ds, g = NdimGaussianQ)
    ∧ (∀ n, (update_belief v fs).1.belief.eta n = v.prior.eta n)
    ∧ (∀ i j, (update_belief v fs).1.belief.lam i j = v.prior.lam i j)
    ∧ ((update_belief v fs).2.2 = false
        ↔ (toMat v.dofs v.prior.lam).det = 0) := by
  have hmsg : ∀ f ∈ fs,
      f.messages.getD (msgIx f v.variableID) NdimGaussianQ = NdimGaussianQ := by
    intro f hf
    by_cases hlt : msgIx f v.variableID < f.messages.length
    · rw [List.getD_eq_getElem _ _ hlt]
      exact hz f hf _ (List.getElem_mem hlt)
    · exact List.getD_eq_default _ _ (le_of_not_lt hlt)
  have hbe : ∀ n, (sumPriorMessages v fs).eta n = v.prior.eta n := by
    intro n
    rw [sumPriorMessages, beliefFold_eta]
    have hzero : ∀ x ∈ fs.map fun f =>
        (f.messages.getD (msgIx f v.variableID) NdimGaussianQ).eta n,
        x = (0 : ℚ) := by
      intro x hx
      obtain ⟨f, hf, rfl⟩ := List.mem_map.mp hx
      rw [hmsg f hf]
      rfl
    rw [List.sum_eq_zero hzero]
    ring
  have hbl : ∀ i j, (sumPriorMessages v fs).lam i j = v.prior.lam i j := by
    intro i j
    rw [sumPriorMessages, beliefFold_lam]
    have hzero : ∀ x ∈ fs.map fun f =>
        (f.messages.getD (msgIx f v.variableID) NdimGaussianQ).lam i j,
        x = (0 : ℚ) := by
      intro x hx
      obtain ⟨f, hf, rfl⟩ := List.mem_map.mp hx
      rw [hmsg f hf]
      rfl
    rw [List.sum_eq_zero hzero]
    ring
  have hmat : toMat v.dofs (sumPriorMessages v fs).lam
      = toMat v.dofs v.prior.lam := by
    funext i j
    exact hbl i.1 j.1
  refine ⟨?_, ?_, ?_, ?_⟩
  · intro g hg
    obtain ⟨a, _, rfl⟩ := List.mem_map.mp hg
    rfl
  · intro n
    rw [update_belief_belief]
    exact hbe n
  · intro i j
    rw [update_belief_belief]
    exact hbl i j
  · rw [update_belief_flag_iff, hmat]

/-- Claim C10 witness: a freshly constructed factor adjacent to a variable
whose prior is (4, 0): the initial message list is all zero Gaussians,
the belief after update_belief equals the prior (eta 4 at 0), and since
the prior precision is singular the update fails. -/
theorem factor_init_zero_messages_witness :
    (update_belief c10Var [c10Factor]).1.belief.eta 0 = 4
    ∧ (update_belief c10Var [c10Factor]).2.2 = false := by
  have hz : ∀ f ∈ [c10Factor], ∀ g ∈ f.messages, g = NdimGaussianQ := by
    intro f hf
    rw [List.mem_singleton] at hf
    subst hf
    intro g hg
    simpa [c10Factor, factorInitMessages] using hg
  obtain ⟨_, h2, _, h4⟩ := factor_init_zero_messages [1] c10Var [c10Factor] hz
  constructor
  · rw [h2 0]
    rfl
  · apply h4.mpr
    simp [Matrix.det_fin_one, toMat, c10Var]

/-- Helper: slotwise description of the commit loop: a slot holds the new
message once its index has been committed, and its old content before. -/
theorem commitAll_getElem? (news : List GaussQ) :
    ∀ (order : List ℕ) (msgs : List GaussQ) (i : ℕ),
    (commitAll order msgs news)[i]? =
      if i ∈ order ∧ i < msgs.length then some (news.getD i NdimGaussianQ)
      else msgs[i]? := by
  intro order
  induction order with
  | nil =>
      intro msgs i
      simp [commitAll]
  | cons o os ih =>
      intro msgs i
      have hstep : commitAll (o :: os) msgs news
          = commitAll os (msgs.set o (news.getD o NdimGaussianQ)) news := rfl
      rw [hstep, ih, List.length_set]
      by_cases h2 : i < msgs.length
      · by_cases h1 : i ∈ os
        · rw [if_pos ⟨h1, h2⟩, if_pos ⟨List.mem_cons_of_mem o h1, h2⟩]
        · rw [if_neg (fun hc => h1 hc.1)]
          by_cases h3 : o = i
          · subst h3
            rw [List.getElem?_set_self h2,
              if_pos ⟨List.mem_cons_self o os, h2⟩]
          · rw [List.getElem?_set_ne h3,
              if_neg (fun hc =>
                (List.mem_cons.mp hc.1).elim (fun he => h3 he.symm) h1)]
      · rw [if_neg (fun hc => h2 hc.2), if_neg (fun hc => h2 hc.2),
          List.getElem?_set]
        by_cases h3 : o = i
        · subst h3
          rw [if_pos rfl, if_neg (by omega),
            List.getElem?_eq_none (by omega)]
        · rw [if_neg h3]

/-- Helper: committing a full set of precomputed messages in any order
that visits every slot exactly once yields the precomputed list. -/
theorem commitAll_perm (k : ℕ) (order : List ℕ)
    (ho : order.Perm (List.range k)) (msgs news : List GaussQ)
    (hm : msgs.length = k) (hn : news.length = k) :
    commitAll order msgs news = news := by
  apply List.ext_getElem?
  intro i
  rw [commitAll_getElem?]
  by_cases hik : i < k
  · have hmem : i ∈ order := (ho.mem_iff).mpr (List.mem_range.mpr hik)
    rw [if_pos ⟨hmem, by omega⟩, List.getD_eq_getElem _ _ (by omega),
      List.getElem?_eq_getElem (by omega)]
  · rw [if_neg (fun hc => hik (List.mem_range.mp ((ho.mem_iff).mp hc.1))),
      List.getElem?_eq_none (by omega), List.getElem?_eq_none (by omega)]

/-- Claim C9: compute_messages computes every outgoing message from the
factor state as it was at entry (the cavity subtraction and the damping
both read the pre-call messages array), and only then overwrites the
messages array; consequently committing the precomputed messages in any
per-neighbour order (any permutation of the slots) produces the same
final messages array. -/
theorem compute_messages_two_phase (f : MFactor) (eta_damping : ℚ)
    (hm : f.messages.length = f.adj_dofs.length) :
    (compute_messages f eta_damping).messages
      = (List.range f.adj_dofs.length).map (messageAt f eta_damping)
    ∧ ∀ order, order.Perm (List.range f.adj_dofs.length) →
        commitAll order f.messages
            ((List.range f.adj_dofs.length).map (messageAt f eta_damping))
          = (List.range f.adj_dofs.length).map (messageAt f eta_damping) := by
  have hp : ∀ order, order.Perm (List.range f.adj_dofs.length) →
      commitAll order f.messages
          ((List.range f.adj_dofs.length).map (messageAt f eta_damping))
        = (List.range f.adj_dofs.length).map (messageAt f eta_damping) := by
    intro order ho
    exact commitAll_perm f.adj_dofs.length order ho _ _ hm (by simp)
  exact ⟨hp _ (List.Perm.refl _), hp⟩

/-- Claim C9 witness: on a concrete unary factor the committed messages
array equals the list of messages computed from the entry state. -/
theorem compute_messages_two_phase_witness :
    (compute_messages c9Factor 0).messages
      = (List.range 1).map (messageAt c9Factor 0) :=
  (compute_messages_two_phase c9Factor 0 rfl).1

/-- Claim C4: for a factor with the Huber loss, robustify_loss sets the
adaptive variance to sigma^2 d^2 / (2 (tau d - tau^2/2)) when the
Mahalanobis distance d exceeds the threshold tau and to the nominal
sigma^2 otherwise, multiplies both components of the stored factor by
old/new in place, and does not relinearise: the linpoint is untouched
and the factor changes only by that scalar ratio (no Jacobian is
recomputed). -/
theorem robustify_loss_huber (f : RFactor) (hl : f.loss = some LossKind.huber) :
    (mahalanobis_dist f > f.mahalanobis_threshold →
        (robustify_loss f).adaptive_gauss_noise_var =
          f.gauss_noise_var * mahalanobis_dist f ^ 2 /
            (2 * (f.mahalanobis_threshold * mahalanobis_dist f
              - 1 / 2 * f.mahalanobis_threshold ^ 2)))
    ∧ (¬ mahalanobis_dist f > f.mahalanobis_threshold →
        (robustify_loss f).adaptive_gauss_noise_var = f.gauss_noise_var)
    ∧ (robustify_loss f).linpoint = f.linpoint
    ∧ (∀ n, (robustify_loss f).factor.eta n =
        f.factor.eta n * (f.adaptive_gauss_noise_var /
          (robustify_loss f).adaptive_gauss_noise_var))
    ∧ (∀ i j, (robustify_loss f).factor.lam i j =
        f.factor.lam i j * (f.adaptive_gauss_noise_var /
          (robustify_loss f).adaptive_gauss_noise_var)) := by
  by_cases hd : mahalanobis_dist f > f.mahalanobis_threshold
  · refine ⟨fun _ => ?_, fun hn => absurd hd hn, ?_, fun n => ?_, fun i j => ?_⟩ <;>
      simp [robustify_loss, hl, hd]
  · refine ⟨fun hc => absurd hc hd, fun _ => ?_, ?_, fun n => ?_, fun i j => ?_⟩ <;>
      simp [robustify_loss, hl, hd]

/-- Claim C4 witness: with a zero residual at the linpoint the Mahalanobis
distance is 0, the Huber loss does not fire, the adaptive variance is
restored to the nominal 1 and the linpoint is untouched. -/
theorem robustify_loss_huber_witness :
    (robustify_loss c4Factor).adaptive_gauss_noise_var = 1
    ∧ (robustify_loss c4Factor).linpoint = c4Factor.linpoint := by
  have h := robustify_loss_huber c4Factor rfl
  have hm : mahalanobis_dist c4Factor = 0 := by
    simp [mahalanobis_dist, normSqR, c4Factor]
  have hnd : ¬ mahalanobis_dist c4Factor > c4Factor.mahalanobis_threshold := by
    rw [hm]
    norm_num [c4Factor]
  refine ⟨?_, h.2.2.1⟩
  rw [h.2.1 hnd]
  norm_num [c4Factor]

/-- Helper: whatever the loss tag and whether it fires, robustify_loss
keeps the nominal variance and rescales the stored factor exactly by
the ratio of the old to the new adaptive variance. -/
theorem robustify_scales (f : RFactor) :
    (robustify_loss f).gauss_noise_var = f.gauss_noise_var
    ∧ (∀ n, (robustify_loss f).factor.eta n = f.factor.eta n *
        (f.adaptive_gauss_noise_var /
          (robustify_loss f).adaptive_gauss_noise_var))
    ∧ (∀ i j, (robustify_loss f).factor.lam i j = f.factor.lam i j *
        (f.adaptive_gauss_noise_var /
          (robustify_loss f).adaptive_gauss_noise_var)) := by
  rcases hl : f.loss with _ | k
  · exact ⟨by simp [robustify_loss, hl],
      fun n => by simp [robustify_loss, hl],
      fun i j => by simp [robustify_loss, hl]⟩
  · cases k <;>
      by_cases hd : mahalanobis_dist f > f.mahalanobis_threshold <;>
      exact ⟨by simp [robustify_loss, hl, hd],
        fun n => by simp [robustify_loss, hl, hd],
        fun i j => by simp [robustify_loss, hl, hd]⟩

/-- Claim C5: starting from a factor whose adaptive variance equals the
nonzero nominal variance, calling robustify_loss and then reverting the
adaptive variance to the nominal one (the rescale by the inverse ratio
that the next non-firing robustify_loss performs) restores the stored
factor exactly, in exact field arithmetic. -/
theorem robustify_loss_round_trip (f : RFactor)
    (h0 : f.adaptive_gauss_noise_var = f.gauss_noise_var)
    (hg : f.gauss_noise_var ≠ 0)
    (hn : (robustify_loss f).adaptive_gauss_noise_var ≠ 0) :
    (∀ n, (revert_adaptive (robustify_loss f)).factor.eta n = f.factor.eta n)
    ∧ (∀ i j,
        (revert_adaptive (robustify_loss f)).factor.lam i j = f.factor.lam i j)
    ∧ (revert_adaptive (robustify_loss f)).adaptive_gauss_noise_var
        = f.adaptive_gauss_noise_var := by
  obtain ⟨hgv, he, hlm⟩ := robustify_scales f
  refine ⟨?_, ?_, ?_⟩
  · intro n
    show (robustify_loss f).factor.eta n *
        ((robustify_loss f).adaptive_gauss_noise_var /
          (robustify_loss f).gauss_noise_var) = _
    rw [he n, hgv, h0]
    field_simp
  · intro i j
    show (robustify_loss f).factor.lam i j *
        ((robustify_loss f).adaptive_gauss_noise_var /
          (robustify_loss f).gauss_noise_var) = _
    rw [hlm i j, hgv, h0]
    field_simp
  · show (robustify_loss f).gauss_noise_var = _
    rw [hgv, h0]

/-- Claim C5 witness: for the concrete factor with no robust loss and unit
variances, robustify then revert restores the stored (2, 3) factor. -/
theorem robustify_loss_round_trip_witness :
    (revert_adaptive (robustify_loss c5Factor)).factor.eta 0
        = c5Factor.factor.eta 0
    ∧ (revert_adaptive (robustify_loss c5Factor)).factor.lam 0 0
        = c5Factor.factor.lam 0 0 := by
  have hg : c5Factor.gauss_noise_var ≠ 0 := by
    norm_num [c5Factor]
  have hn : (robustify_loss c5Factor).adaptive_gauss_noise_var ≠ 0 := by
    simp [robustify_loss, c5Factor]
  have h := robustify_loss_round_trip c5Factor rfl hg hn
  exact ⟨h.1 0, h.2.1 0 0⟩

/-- Helper: starting right after a relinearisation, as long as fewer than
min_linear_iters iterations have passed the gate cannot fire, whatever
the belief drift. -/
theorem relinRun_no_fire (beta : ℝ) (min_linear_iters : ℕ) :
    ∀ (bss : List (List (ℕ × GaussR))) (f : RFactor),
      f.iters_since_relin + bss.length ≤ min_linear_iters →
      (relinRun beta min_linear_iters f bss).2 = 0 := by
  intro bss
  induction bss with
  | nil => intro f _; rfl
  | cons bs rest ih =>
      intro f hlen
      have hnc : ¬ relinCond beta min_linear_iters
          { f with adj_beliefs := bs } := by
        intro hc
        have h2 : min_linear_iters ≤ f.iters_since_relin := hc.2
        simp only [List.length_cons] at hlen
        omega
      have hstep : (relinearise_step beta min_linear_iters
          { f with adj_beliefs := bs }).iters_since_relin
          = f.iters_since_relin + 1 := by
        rw [relinearise_step, if_neg hnc]
      rw [relinRun, if_neg hnc]
      have hr := ih (relinearise_step beta min_linear_iters
        { f with adj_beliefs := bs })
        (by
          rw [hstep]
          simp only [List.length_cons] at hlen
          omega)
      simpa using hr

/-- Claim C6: the per-factor body of relinearise_factors relinearises
(runs compute_factor at the concatenated belief means, stores them as
the linpoint, resets iters_since_relin to 0 and clears eta_damping)
exactly when the drift from the linpoint exceeds beta and at least
min_linear_iters iterations have passed; otherwise it only increments
the counter. Consequently, after a relinearisation no further
relinearisation happens for at least min_linear_iters iterations, no
matter how far the beliefs drift. -/
theorem relinearise_step_spec (beta : ℝ) (min_linear_iters : ℕ)
    (f : RFactor) :
    (relinCond beta min_linear_iters f ↔
      Real.sqrt (normSqR f.dofs_conditional_vars fun n =>
          f.linpoint n - (concatMeansR f.adj_beliefs (fun _ => 0) 0).1 n)
        > beta
      ∧ min_linear_iters ≤ f.iters_since_relin)
    ∧ (relinCond beta min_linear_iters f →
        relinearise_step beta min_linear_iters f =
          { f with
              factor := compute_factor f
                (concatMeansR f.adj_beliefs (fun _ => 0) 0).1
              linpoint := (concatMeansR f.adj_beliefs (fun _ => 0) 0).1
              iters_since_relin := 0
              eta_damping := 0 })
    ∧ (¬ relinCond beta min_linear_iters f →
        relinearise_step beta min_linear_iters f =
          { f with iters_since_relin := f.iters_since_relin + 1 })
    ∧ (f.iters_since_relin = 0 →
        ∀ bss : List (List (ℕ × GaussR)), bss.length ≤ min_linear_iters →
          (relinRun beta min_linear_iters f bss).2 = 0) := by
  refine ⟨Iff.rfl, fun hc => ?_, fun hnc => ?_, fun h0 bss hlen => ?_⟩
  · rw [relinearise_step, if_pos hc]
  · rw [relinearise_step, if_neg hnc]
  · exact relinRun_no_fire beta min_linear_iters bss f (by omega)

/-- Claim C6 witness: a freshly relinearised factor (counter 0) with
min_linear_iters = 3 does not relinearise at the next step (the counter
moves to 1), and one further iteration also fires no relinearisation. -/
theorem relinearise_step_spec_witness :
    (relinearise_step 1 3 c6Factor).iters_since_relin = 1
    ∧ (relinRun 1 3 c6Factor [[]]).2 = 0 := by
  have h := relinearise_step_spec 1 3 c6Factor
  have hnc : ¬ relinCond 1 3 c6Factor := by
    intro hc
    have h2 := hc.2
    norm_num [c6Factor] at h2
  constructor
  · rw [h.2.2.1 hnc]
    rfl
  · exact h.2.2.2 rfl [[]] (by norm_num)
